import Mathlib

set_option autoImplicit false

/-!
Verification of the HPOA builder's core engines, shallowly embedded from
`src/app.py`: the annotation reconciliation loop ("Approve Edits"), the
suggestion flattening (`annotations_to_df`), the ontology loader
(`extract_terms_ontology`, `create_edge_list`, `load_minimal_ontology`),
the hierarchy materializer (`build_tree`) and the Agent-tab chat handler.
-/

namespace HpoaBuilder

/-! ## Annotation rows

An annotation row is a field bag: an association list from column name to
string value.  A missing field models a pandas `NaN` cell (the DataFrame is
read with `dtype=str`, so present cells are strings).  `getF` is `row[k]`
lookup, `optEq` is pandas elementwise `==`, under which `NaN` compares
unequal to everything, including another `NaN`. -/

abbrev Row := List (String × String)

def getF (r : Row) (k : String) : Option String :=
  (r.find? (fun kv => kv.1 == k)).map (fun kv => kv.2)

def optEq : Option String → Option String → Bool
  | some a, some b => a == b
  | _, _ => false

/-- The mask `(hpoa_df["database_id"] == row["database_id"]) &
(hpoa_df["hpo_id"] == row["hpo_id"])` evaluated at one stored row `r`
against the change row `change`. -/
def keyMatches (change r : Row) : Bool :=
  optEq (getF r "database_id") (getF change "database_id") &&
    optEq (getF r "hpo_id") (getF change "hpo_id")

/-- `row.drop(["status", "rationale"])`. -/
def dropBookkeeping (r : Row) : Row :=
  r.filter (fun kv => kv.1 != "status" && kv.1 != "rationale")

/-- One iteration of the "Approve Edits" loop in `app.py`:
`removed` rows filter the store by identity key, every other row is
concatenated (minus the status / rationale columns). -/
def applyChange (current : List Row) (change : Row) : List Row :=
  if getF change "status" == some "removed" then
    current.filter (fun r => !(keyMatches change r))
  else
    current ++ [dropBookkeeping change]

/-- The whole "Approve Edits" loop: `for _, row in edited.iterrows(): ...`,
reassigning `hpoa_df` at every step. -/
def applyChanges (current : List Row) (changes : List Row) : List Row :=
  changes.foldl applyChange current

/-! ### Helper lemmas about rows -/

theorem optEq_none_right (o : Option String) : optEq o none = false := by
  cases o <;> rfl

theorem getF_filter_keep (r : Row) (k : String) (p : String × String → Bool)
    (hp : ∀ v, p (k, v) = true) : getF (r.filter p) k = getF r k := by
  induction r with
  | nil => rfl
  | cons kv rest ih =>
    obtain ⟨k1, v⟩ := kv
    by_cases hk : k1 = k
    · subst hk
      simp [List.filter_cons, hp v, getF, List.find?]
    · cases hpv : p (k1, v) with
      | false =>
        have hne : (k1 == k) = false := by simp [hk]
        simp only [List.filter_cons, hpv, Bool.false_eq_true, if_false]
        rw [ih]
        simp [getF, List.find?, hne]
      | true =>
        have hne : (k1 == k) = false := by simp [hk]
        simp only [List.filter_cons, hpv, if_true]
        simp only [getF, List.find?, hne]
        exact ih

theorem getF_dropBookkeeping (r : Row) (k : String)
    (h1 : k ≠ "status") (h2 : k ≠ "rationale") :
    getF (dropBookkeeping r) k = getF r k := by
  apply getF_filter_keep
  intro v
  simp [h1, h2]

/-! ## Claims about the apply loop -/

/-- C2: applying a flattened change whose status is `added` or `changed`
appends exactly one new row: the change's fields minus the bookkeeping
columns.  Applying the same change again to the result appends a second
copy of the same row (same identity key): the loop is not idempotent for
`added`/`changed`, duplicates accumulate. -/
theorem apply_added_appends_and_accumulates (current : List Row) (change : Row)
    (h : getF change "status" = some "added" ∨ getF change "status" = some "changed") :
    applyChanges current [change] = current ++ [dropBookkeeping change] ∧
    applyChanges current [change, change] =
      current ++ [dropBookkeeping change, dropBookkeeping change] ∧
    (∀ k, k ≠ "status" → k ≠ "rationale" →
      getF (dropBookkeeping change) k = getF change k) := by
  have hs : (getF change "status" == some "removed") = false := by
    rcases h with h | h <;> rw [h] <;> decide
  refine ⟨?_, ?_, ?_⟩
  · simp [applyChanges, applyChange, hs]
  · simp [applyChanges, applyChange, hs]
  · intro k h1 h2
    exact getF_dropBookkeeping change k h1 h2

theorem apply_added_witness :
    applyChanges
        [[("database_id", "OMIM:1"), ("hpo_id", "HP:1")]]
        [[("database_id", "OMIM:1"), ("hpo_id", "HP:2"), ("status", "added"), ("rationale", "r")],
         [("database_id", "OMIM:1"), ("hpo_id", "HP:2"), ("status", "added"), ("rationale", "r")]] =
      [[("database_id", "OMIM:1"), ("hpo_id", "HP:1")],
       [("database_id", "OMIM:1"), ("hpo_id", "HP:2")],
       [("database_id", "OMIM:1"), ("hpo_id", "HP:2")]] := by
  have h := (apply_added_appends_and_accumulates
    [[("database_id", "OMIM:1"), ("hpo_id", "HP:1")]]
    [("database_id", "OMIM:1"), ("hpo_id", "HP:2"), ("status", "added"), ("rationale", "r")]
    (Or.inl rfl)).2.1
  rw [h]
  rfl

/-- C3: applying a `removed` change deletes exactly the stored rows whose
`(database_id, hpo_id)` key matches the change's key; when no stored row
matches, the store is returned unchanged and no failure occurs. -/
theorem apply_removed_filters_by_key (current : List Row) (change : Row)
    (h : getF change "status" = some "removed") :
    applyChange current change = current.filter (fun r => !(keyMatches change r)) ∧
    ((∀ r ∈ current, keyMatches change r = false) → applyChange current change = current) := by
  have hs : (getF change "status" == some "removed") = true := by
    rw [h]; decide
  constructor
  · simp [applyChange, hs]
  · intro hnone
    simp only [applyChange, hs, if_true]
    apply List.filter_eq_self.mpr
    intro r hr
    simp [hnone r hr]

theorem apply_removed_witness :
    applyChange
        [[("database_id", "OMIM:1"), ("hpo_id", "HP:1")]]
        [("database_id", "OMIM:9"), ("hpo_id", "HP:9"), ("status", "removed")] =
      [[("database_id", "OMIM:1"), ("hpo_id", "HP:1")]] := by
  apply (apply_removed_filters_by_key
    [[("database_id", "OMIM:1"), ("hpo_id", "HP:1")]]
    [("database_id", "OMIM:9"), ("hpo_id", "HP:9"), ("status", "removed")] rfl).2
  intro r hr
  simp only [List.mem_singleton] at hr
  subst hr
  rfl

/-- C10: the deletion branch is taken exactly when the change's status cell
is the string `removed`; every other status (including a missing status
cell, the empty string or an unrecognized tag) leads to the append branch,
and a `removed` change with no `database_id` field matches nothing and
leaves the store unchanged — no change is ever rejected. -/
theorem apply_branch_dichotomy (current : List Row) (change : Row) :
    (getF change "status" = some "removed" →
      applyChange current change = current.filter (fun r => !(keyMatches change r))) ∧
    (getF change "status" ≠ some "removed" →
      applyChange current change = current ++ [dropBookkeeping change]) ∧
    (getF change "database_id" = none → getF change "status" = some "removed" →
      applyChange current change = current) := by
  refine ⟨?_, ?_, ?_⟩
  · intro h
    have hs : (getF change "status" == some "removed") = true := by rw [h]; decide
    simp [applyChange, hs]
  · intro h
    have hs : (getF change "status" == some "removed") = false := by
      cases hv : getF change "status" with
      | none => rfl
      | some s =>
        rw [hv] at h
        have : ¬ s = "removed" := fun hc => h (by rw [hc])
        simp [this]
    simp [applyChange, hs]
  · intro hdb hst
    have hs : (getF change "status" == some "removed") = true := by rw [hst]; decide
    simp only [applyChange, hs, if_true]
    apply List.filter_eq_self.mpr
    intro r _
    simp [keyMatches, hdb, optEq_none_right]

theorem apply_branch_witness :
    applyChange [[("database_id", "OMIM:1"), ("hpo_id", "HP:1")]]
        [("hpo_id", "HP:7"), ("status", "weird")] =
      [[("database_id", "OMIM:1"), ("hpo_id", "HP:1")], [("hpo_id", "HP:7")]] := by
  have h := (apply_branch_dichotomy
    [[("database_id", "OMIM:1"), ("hpo_id", "HP:1")]]
    [("hpo_id", "HP:7"), ("status", "weird")]).2.1 (by decide)
  rw [h]
  rfl

/-! ## Agent tab chat handler (C9)

Session state of the Agent tab: the chat transcript, the cached
`last_agent_result`, and the annotation store `hpoa_df`.  The handler is the
`if user_msg:` block of `app.py`; the external suggester call
`call_agent_with_retry` either returns a reply or raises, which we pass in
as an `Except` outcome. -/

structure AgentSession where
  chat_messages : List (String × String)
  last_agent_result : Option String
  hpoa_rows : List Row
deriving DecidableEq

def chat_handler (s : AgentSession) (user_msg : String)
    (outcome : Except String String) : AgentSession :=
  let s1 := { s with chat_messages := s.chat_messages ++ [("user", user_msg)] }
  match outcome with
  | Except.ok reply =>
      { s1 with
          last_agent_result := some reply
          chat_messages := s1.chat_messages ++ [("assistant", reply)] }
  | Except.error e =>
      { s1 with chat_messages := s1.chat_messages ++ [("assistant", "Error: " ++ e)] }

/-- C9: a failed or timed-out suggester call is non-fatal: the error text is
surfaced as the assistant's chat reply, while the annotation store rows and
the cached last agent result are left exactly as they were. -/
theorem chat_failure_leaves_store_untouched (s : AgentSession) (msg e : String) :
    (chat_handler s msg (Except.error e)).hpoa_rows = s.hpoa_rows ∧
    (chat_handler s msg (Except.error e)).last_agent_result = s.last_agent_result ∧
    (chat_handler s msg (Except.error e)).chat_messages =
      s.chat_messages ++ [("user", msg), ("assistant", "Error: " ++ e)] := by
  refine ⟨rfl, rfl, ?_⟩
  simp [chat_handler]

/-! ## Suggestion flattening (`annotations_to_df`)

The raw suggestion output is JSON-like: each annotation item is a Python
dict whose values are strings or one nested dict (the `annotation` wrapper
shape).  `jGet` is `dict.get`, `jSet` is dict assignment (replace the value
of an existing key in place, else insert at the end, as Python dicts do). -/

inductive JVal where
  | str : String → JVal
  | obj : List (String × JVal) → JVal

def jGet (fs : List (String × JVal)) (k : String) : Option JVal :=
  (fs.find? (fun kv => kv.1 == k)).map (fun kv => kv.2)

def jSet : List (String × JVal) → String → JVal → List (String × JVal)
  | [], k, v => [(k, v)]
  | kv :: rest, k, v => if kv.1 == k then (k, v) :: rest else kv :: jSet rest k v

theorem jGet_jSet_same (fs : List (String × JVal)) (k : String) (v : JVal) :
    jGet (jSet fs k v) k = some v := by
  induction fs with
  | nil => simp [jSet, jGet, List.find?]
  | cons kv rest ih =>
    cases h : (kv.1 == k) with
    | true => simp [jSet, h, jGet, List.find?]
    | false =>
      simp only [jSet, h, Bool.false_eq_true, if_false]
      simp only [jGet, List.find?, h] at ih ⊢
      exact ih

theorem jGet_jSet_other (fs : List (String × JVal)) (k k' : String) (v : JVal)
    (h : k' ≠ k) : jGet (jSet fs k v) k' = jGet fs k' := by
  have hkk : (k == k') = false := beq_eq_false_iff_ne.mpr (Ne.symm h)
  induction fs with
  | nil => simp [jSet, jGet, List.find?, hkk]
  | cons kv rest ih =>
    cases hh : (kv.1 == k) with
    | true =>
      have h1 : kv.1 = k := by simpa using hh
      have h2 : (kv.1 == k') = false := by
        rw [h1]; exact beq_eq_false_iff_ne.mpr (Ne.symm h)
      simp [jSet, hh, jGet, List.find?, hkk, h2]
    | false =>
      simp only [jSet, hh, Bool.false_eq_true, if_false]
      simp only [jGet, List.find?] at ih ⊢
      cases hk' : (kv.1 == k') with
      | true => simp
      | false =>
        simp only [Bool.false_eq_true, if_false]
        exact ih

/-- One iteration of the `for item in annotations:` loop of
`annotations_to_df`: the wrapper shape (a dict with an `annotation` key)
becomes the embedded row with status `removed` and the wrapper's rationale;
a bare row keeps its own status (default `added`) and rationale (default
`""`).  An `annotation` value that is not itself a dict would make
`item["annotation"].copy()` raise, which we model as `none`. -/
def flattenItem (item : List (String × JVal)) : Option (List (String × JVal)) :=
  match jGet item "annotation" with
  | some (JVal.obj row) =>
      let row1 := jSet row "status" (JVal.str "removed")
      some (jSet row1 "rationale" ((jGet item "rationale").getD (JVal.str "")))
  | some (JVal.str _) => none
  | none =>
      let row1 := jSet item "status" ((jGet item "status").getD (JVal.str "added"))
      some (jSet row1 "rationale" ((jGet row1 "rationale").getD (JVal.str "")))

/-- The whole flattening loop, building the DataFrame row list in input
order. -/
def annotations_to_df : List (List (String × JVal)) →
    Option (List (List (String × JVal)))
  | [] => some []
  | item :: rest => do
    let r ← flattenItem item
    let rs ← annotations_to_df rest
    pure (r :: rs)

/-- C1: flattening normalizes both change shapes into one uniform
row+status+rationale record: a wrapper item yields its embedded row with
status `removed` and the wrapper's rationale (default `""`); a bare row
keeps an explicit status and otherwise gets `added`, with missing rationale
defaulting to `""`; all other fields pass through unchanged, and the
DataFrame has exactly one record per change. -/
theorem flatten_normalizes (item : List (String × JVal)) :
    (∀ row, jGet item "annotation" = some (JVal.obj row) →
      ∃ out, flattenItem item = some out ∧
        jGet out "status" = some (JVal.str "removed") ∧
        jGet out "rationale" = some ((jGet item "rationale").getD (JVal.str "")) ∧
        (∀ k, k ≠ "status" → k ≠ "rationale" → jGet out k = jGet row k)) ∧
    (jGet item "annotation" = none →
      ∃ out, flattenItem item = some out ∧
        jGet out "status" = some ((jGet item "status").getD (JVal.str "added")) ∧
        jGet out "rationale" = some ((jGet item "rationale").getD (JVal.str "")) ∧
        (∀ k, k ≠ "status" → k ≠ "rationale" → jGet out k = jGet item k)) ∧
    (∀ rest outs, annotations_to_df rest = some outs → outs.length = rest.length) := by
  refine ⟨?_, ?_, ?_⟩
  · intro row hrow
    refine ⟨_, by rw [flattenItem, hrow], ?_, ?_, ?_⟩
    · rw [jGet_jSet_other _ _ _ _ (by decide), jGet_jSet_same]
    · rw [jGet_jSet_same]
    · intro k h1 h2
      rw [jGet_jSet_other _ _ _ _ h2, jGet_jSet_other _ _ _ _ h1]
  · intro hnone
    refine ⟨_, by rw [flattenItem, hnone], ?_, ?_, ?_⟩
    · rw [jGet_jSet_other _ _ _ _ (by decide), jGet_jSet_same]
    · rw [jGet_jSet_same, jGet_jSet_other _ _ _ _ (by decide)]
    · intro k h1 h2
      rw [jGet_jSet_other _ _ _ _ h2, jGet_jSet_other _ _ _ _ h1]
  · intro rest
    induction rest with
    | nil =>
      intro outs h
      simp only [annotations_to_df] at h
      cases h
      rfl
    | cons item rest ih =>
      intro outs h
      simp only [annotations_to_df, Option.bind_eq_bind, Option.bind_eq_some] at h
      obtain ⟨r, _, rs, hrs, hout⟩ := h
      cases hout
      simp [ih rs hrs]

/-- A concrete wrapper-shaped item, its embedded row, and its flattened
record, used to witness `flatten_normalizes`. -/
def wItem : List (String × JVal) :=
  [("rationale", JVal.str "dup"),
   ("annotation", JVal.obj [("database_id", JVal.str "OMIM:1"), ("status", JVal.str "x")])]

def wRow : List (String × JVal) :=
  [("database_id", JVal.str "OMIM:1"), ("status", JVal.str "x")]

def wOut : List (String × JVal) :=
  [("database_id", JVal.str "OMIM:1"), ("status", JVal.str "removed"),
   ("rationale", JVal.str "dup")]

theorem flatten_witness :
    flattenItem wItem = some wOut ∧
    jGet wOut "status" = some (JVal.str "removed") ∧
    jGet wOut "rationale" = some (JVal.str "dup") ∧
    jGet wOut "database_id" = jGet wRow "database_id" := by
  obtain ⟨out, h1, h2, h3, h4⟩ := (flatten_normalizes wItem).1 wRow rfl
  have hflat : flattenItem wItem = some wOut := rfl
  rw [hflat] at h1
  obtain rfl := Option.some.inj h1
  exact ⟨hflat, h2, h3, h4 "database_id" (by decide) (by decide)⟩

/-! ## Term graph loader

`extract_curie_from_purl` models `PURL_PATTERN.match(purl)`: the pattern is
the OBO base URI followed by `\w+` `_` `\w+`, matched (not fullmatched) at
the start of the string.  The whole maximal word-character run after the
base is the `curie` group whenever it can be split as `\w+ _ \w+`.
`fromCurie` models `hpotk`'s `TermId.from_curie`, which splits at the first
`:` if present, else at the first `_`.  `pfx` stands for the term-id's
namespace component (`term_id.prefix` in the source; renamed because the
word is reserved in Lean). -/

def isWordChar (c : Char) : Bool := c.isAlphanum || c == '_'

def oboBase : String := "http://purl.obolibrary.org/obo/"

/-- Prefix test on character lists (kernel-reducible counterpart of the
anchored part of `re.match`). -/
def listIsPrefixOf : List Char → List Char → Bool
  | [], _ => true
  | _ :: _, [] => false
  | a :: as, b :: bs => a == b && listIsPrefixOf as bs

def extract_curie_from_purl (purl : String) : Option String :=
  let cs := purl.data
  let base := oboBase.data
  if listIsPrefixOf base cs then
    let core := (cs.drop base.length).takeWhile isWordChar
    if ((core.drop 1).dropLast).contains '_' then some ⟨core⟩ else none
  else none

structure TermId where
  pfx : String
  idPart : String
deriving DecidableEq

/-- The colon-form string of a term id, `TermId.value` in `hpotk`
(e.g. `HP:0000001`). -/
def TermId.value (t : TermId) : String := t.pfx ++ ":" ++ t.idPart

def fromCurie (curie : String) : Option TermId :=
  let cs := curie.data
  if cs.contains ':' then
    some ⟨⟨cs.takeWhile (fun c => !(c == ':'))⟩, ⟨(cs.dropWhile (fun c => !(c == ':'))).drop 1⟩⟩
  else if cs.contains '_' then
    some ⟨⟨cs.takeWhile (fun c => !(c == '_'))⟩, ⟨(cs.dropWhile (fun c => !(c == '_'))).drop 1⟩⟩
  else none

/-- An obographs node as produced by `create_node`: a URI id, whether the
declared type is `CLASS`, and the label. -/
structure Node where
  id : String
  isClass : Bool
  lbl : String
deriving DecidableEq

/-- A `MinimalTerm` as produced by `MinimalTermFactory.create_term` (which
always returns a term object for a class node, so the `if term:` guard in
the source never fails). -/
structure Term where
  termId : TermId
  name : String
deriving DecidableEq

/-- The per-node body of the `for data in nodes:` loop of
`extract_terms_ontology`: skip non-class nodes, non-PURL ids and foreign
prefixes; otherwise yield the dict entry and the term data.  The inner
`none` arm of `fromCurie` is unreachable for regex-produced curies (they
always contain an underscore; `TermId.from_curie` would raise there). -/
def nodeEntry (node : Node) (prefixes : List String) : Option (String × TermId × String) :=
  if node.isClass then
    match extract_curie_from_purl node.id with
    | none => none
    | some curie =>
      match fromCurie curie with
      | none => none
      | some tid =>
        if prefixes.contains tid.pfx then some (curie, tid, node.lbl) else none
  else none

/-- `extract_terms_ontology(nodes, prefixes_of_interest)`: one pass over
the node list building the `curie_to_term` dict (insertion order) and the
retained `terms` list. -/
def extract_terms_ontology : List Node → List String → List (String × TermId) × List Term
  | [], _ => ([], [])
  | node :: rest, prefixes =>
    let tail := extract_terms_ontology rest prefixes
    match nodeEntry node prefixes with
    | none => tail
    | some (curie, tid, lbl) => ((curie, tid) :: tail.1, ⟨tid, lbl⟩ :: tail.2)

def lookupCurie (m : List (String × TermId)) (k : String) : Option TermId :=
  (m.find? (fun kv => kv.1 == k)).map (fun kv => kv.2)

/-- An obographs edge as produced by `create_edge`. -/
structure Edge where
  sub : String
  pred : String
  obj : String
deriving DecidableEq

/-- `create_edge_list(edges, curie_to_termid)`: keep `is_a` edges whose two
endpoint URIs parse to curies and whose curies are keys of the dict; the
`KeyError` branch (`continue`) drops everything else. -/
def create_edge_list : List Edge → List (String × TermId) → List (TermId × TermId)
  | [], _ => []
  | e :: rest, c2t =>
    let tail := create_edge_list rest c2t
    if e.pred == "is_a" then
      match extract_curie_from_purl e.sub, extract_curie_from_purl e.obj with
      | some sc, some dc =>
        match lookupCurie c2t sc, lookupCurie c2t dc with
        | some src, some dest => (src, dest) :: tail
        | some _, none => tail
        | none, _ => tail
      | some _, none => tail
      | none, _ => tail
    else tail

/-- The minimal ontology: the retained terms plus the retained
`(child, parent)` edge list. -/
structure Ontology where
  terms : List Term
  edges : List (TermId × TermId)

structure RawGraph where
  nodes : List Node
  edges : List Edge

/-- A parsed JSON document; `graphs = none` models a document without the
top-level `"graphs"` key. -/
structure RawDoc where
  graphs : Option (List RawGraph)

inductive LoadError where
  | malformedSource
deriving DecidableEq

/-- `load_minimal_ontology`: `doc["graphs"][0]` raises (`KeyError` /
`IndexError`) when the graph container is missing or empty — modelled as
the malformed-source failure; otherwise terms and edges are extracted from
the first graph. -/
def load_minimal_ontology (doc : RawDoc) (p : String) : Except LoadError Ontology :=
  match doc.graphs with
  | none => Except.error LoadError.malformedSource
  | some [] => Except.error LoadError.malformedSource
  | some (g :: _) =>
    let te := extract_terms_ontology g.nodes [p]
    Except.ok ⟨te.2, create_edge_list g.edges te.1⟩

/-! ### Loader lemmas -/

theorem nodeEntry_prefix {node : Node} {prefixes : List String} {curie : String}
    {tid : TermId} {lbl : String} (h : nodeEntry node prefixes = some (curie, tid, lbl)) :
    prefixes.contains tid.pfx = true := by
  unfold nodeEntry at h
  split at h
  · split at h
    · cases h
    · split at h
      · cases h
      · split at h
        · injection h with h2
          cases h2
          assumption
        · cases h
  · cases h

theorem extract_cons_none {node : Node} {rest : List Node} {prefixes : List String}
    (h : nodeEntry node prefixes = none) :
    extract_terms_ontology (node :: rest) prefixes = extract_terms_ontology rest prefixes := by
  simp [extract_terms_ontology, h]

theorem extract_cons_some {node : Node} {rest : List Node} {prefixes : List String}
    {curie : String} {tid : TermId} {lbl : String}
    (h : nodeEntry node prefixes = some (curie, tid, lbl)) :
    extract_terms_ontology (node :: rest) prefixes =
      ((curie, tid) :: (extract_terms_ontology rest prefixes).1,
       (⟨tid, lbl⟩ : Term) :: (extract_terms_ontology rest prefixes).2) := by
  simp [extract_terms_ontology, h]

theorem prefix_of_mem_terms (nodes : List Node) (prefixes : List String) :
    ∀ t ∈ (extract_terms_ontology nodes prefixes).2, prefixes.contains t.termId.pfx := by
  induction nodes with
  | nil => intro t ht; simp [extract_terms_ontology] at ht
  | cons node rest ih =>
    intro t ht
    cases hne : nodeEntry node prefixes with
    | none =>
      rw [extract_cons_none hne] at ht
      exact ih t ht
    | some entry =>
      obtain ⟨curie, tid, lbl⟩ := entry
      rw [extract_cons_some hne] at ht
      rcases List.mem_cons.mp ht with h | h
      · subst h
        exact nodeEntry_prefix hne
      · exact ih t h

theorem map_value_mem_terms (nodes : List Node) (prefixes : List String) :
    ∀ kv ∈ (extract_terms_ontology nodes prefixes).1,
      ∃ t ∈ (extract_terms_ontology nodes prefixes).2, t.termId = kv.2 := by
  induction nodes with
  | nil => intro kv hkv; simp [extract_terms_ontology] at hkv
  | cons node rest ih =>
    intro kv hkv
    cases hne : nodeEntry node prefixes with
    | none =>
      rw [extract_cons_none hne] at hkv ⊢
      exact ih kv hkv
    | some entry =>
      obtain ⟨curie, tid, lbl⟩ := entry
      rw [extract_cons_some hne] at hkv ⊢
      rcases List.mem_cons.mp hkv with h | h
      · subst h
        exact ⟨⟨tid, lbl⟩, List.mem_cons_self _ _, rfl⟩
      · obtain ⟨t, ht, he⟩ := ih kv h
        exact ⟨t, List.mem_cons_of_mem _ ht, he⟩

theorem mem_of_lookupCurie {m : List (String × TermId)} {k : String} {v : TermId}
    (h : lookupCurie m k = some v) : ∃ kv ∈ m, kv.2 = v := by
  unfold lookupCurie at h
  cases hf : List.find? (fun kv => kv.1 == k) m with
  | none => rw [hf] at h; cases h
  | some kv =>
    rw [hf] at h
    exact ⟨kv, List.mem_of_find?_eq_some hf, Option.some.inj h⟩

theorem mem_create_edge_list {edges : List Edge} {c2t : List (String × TermId)}
    {e : TermId × TermId} (h : e ∈ create_edge_list edges c2t) :
    (∃ kv ∈ c2t, kv.2 = e.1) ∧ (∃ kv ∈ c2t, kv.2 = e.2) := by
  induction edges with
  | nil => simp [create_edge_list] at h
  | cons ed rest ih =>
    simp only [create_edge_list] at h
    split at h
    · split at h
      · split at h
        · rcases List.mem_cons.mp h with h1 | h1
          · subst h1
            constructor
            · exact mem_of_lookupCurie (by assumption)
            · exact mem_of_lookupCurie (by assumption)
          · exact ih h1
        · exact ih h
        · exact ih h
      · exact ih h
      · exact ih h
    · exact ih h

/-- C6: loader invariants.  Every term retained with a singleton
`prefixes_of_interest` has exactly that prefix, and every retained edge's
two endpoints resolve to retained terms (builder keeps an edge only after
both dict lookups succeed, and every dict value has its term in the terms
list). -/
theorem loader_invariants (nodes : List Node) (edges : List Edge) (p : String) :
    (∀ t ∈ (extract_terms_ontology nodes [p]).2, t.termId.pfx = p) ∧
    (∀ e ∈ create_edge_list edges (extract_terms_ontology nodes [p]).1,
      (∃ t ∈ (extract_terms_ontology nodes [p]).2, t.termId = e.1) ∧
      (∃ t ∈ (extract_terms_ontology nodes [p]).2, t.termId = e.2)) := by
  constructor
  · intro t ht
    have h := prefix_of_mem_terms nodes [p] t ht
    simpa using h
  · intro e he
    obtain ⟨⟨kv1, hm1, hv1⟩, ⟨kv2, hm2, hv2⟩⟩ := mem_create_edge_list he
    constructor
    · obtain ⟨t, ht, he1⟩ := map_value_mem_terms nodes [p] kv1 hm1
      exact ⟨t, ht, he1.trans hv1⟩
    · obtain ⟨t, ht, he2⟩ := map_value_mem_terms nodes [p] kv2 hm2
      exact ⟨t, ht, he2.trans hv2⟩

def demoNodes : List Node :=
  [⟨oboBase ++ "HP_0000001", true, "Root"⟩,
   ⟨oboBase ++ "HP_0000002", true, "Leaf"⟩,
   ⟨oboBase ++ "MONDO_0000001", true, "Disease"⟩]

def demoEdges : List Edge :=
  [⟨oboBase ++ "HP_0000002", "is_a", oboBase ++ "HP_0000001"⟩]

theorem loader_witness :
    (⟨⟨"HP", "0000002"⟩, "Leaf"⟩ : Term).termId.pfx = "HP" ∧
    ((extract_terms_ontology demoNodes ["HP"]).2.any
      (fun t => t.termId == (⟨"HP", "0000001"⟩ : TermId))) = true := by
  have H := loader_invariants demoNodes demoEdges "HP"
  constructor
  · exact H.1 ⟨⟨"HP", "0000002"⟩, "Leaf"⟩ (by decide)
  · obtain ⟨t, ht, he⟩ :=
      (H.2 ((⟨"HP", "0000002"⟩, ⟨"HP", "0000001"⟩) : TermId × TermId) (by decide)).2
    exact List.any_eq_true.mpr ⟨t, ht, beq_iff_eq.mpr he⟩

/-- C8: a structurally malformed document (no top-level graph container)
makes the load fail with the malformed-source error; it never returns an
ontology, empty or otherwise. -/
theorem malformed_doc_fails (doc : RawDoc) (p : String) (h : doc.graphs = none) :
    load_minimal_ontology doc p = Except.error LoadError.malformedSource ∧
    ∀ ont, load_minimal_ontology doc p ≠ Except.ok ont := by
  obtain ⟨graphs⟩ := doc
  have h2 : graphs = none := h
  subst h2
  exact ⟨rfl, fun ont hc => by cases hc⟩

theorem malformed_doc_witness :
    load_minimal_ontology ⟨none⟩ "HP" = Except.error LoadError.malformedSource :=
  (malformed_doc_fails ⟨none⟩ "HP" rfl).1

/-! ## Hierarchy materializer (`build_tree`)

The display tree node carries `label` (`f"{term.identifier} ({term.name})"`),
`value` (the path key `current_path`) and the ordered children.  Children
are encoded as a mutually inductive forest so that all tree functions are
structural and kernel-reducible.  `build_tree` carries a recursion-depth
fuel: Python's recursion has no cycle guard, so on cyclic input it never
returns — modelled as `none` for every fuel. -/

mutual
inductive TreeNode where
  | mk : String → String → TreeForest → TreeNode
inductive TreeForest where
  | nil : TreeForest
  | cons : TreeNode → TreeForest → TreeForest
end

def TreeNode.value : TreeNode → String
  | TreeNode.mk _ v _ => v

def TreeNode.label : TreeNode → String
  | TreeNode.mk l _ _ => l

/-- `ontology.get_term(term_id)`: look the term up by its colon-form
curie. -/
def Ontology.getTerm (o : Ontology) (curie : String) : Option Term :=
  o.terms.find? (fun t => t.termId.value == curie)

/-- `ontology.graph.get_children(term)`: sources of the `is_a` edges whose
destination is the given term, in edge-list order. -/
def childrenOf (o : Ontology) (curie : String) : List TermId :=
  (o.edges.filter (fun e => e.2.value == curie)).map (fun e => e.1)

/-- The `for child in children:` loop of `build_tree`: recurse per child in
order; a failing recursion propagates (in Python it would be a crash or
unbounded recursion). -/
def forestOfList (f : TermId → Option TreeNode) : List TermId → Option TreeForest
  | [] => some TreeForest.nil
  | c :: cs =>
    match f c with
    | none => none
    | some node =>
      match forestOfList f cs with
      | none => none
      | some rest => some (TreeForest.cons node rest)

/-- `build_tree(ontology, term_id, path)` with explicit recursion fuel. -/
def build_tree (o : Ontology) : Nat → String → String → Option TreeNode
  | 0, _, _ => none
  | Nat.succ n, term_id, path =>
    match o.getTerm term_id with
    | none => none
    | some term =>
      let current_path :=
        if path == "" then term.name ++ term_id else path ++ "/" ++ (term.name ++ term_id)
      match forestOfList (fun c => build_tree o n c.value current_path)
          (childrenOf o term_id) with
      | none => none
      | some forest =>
        some (TreeNode.mk (term.termId.value ++ " (" ++ term.name ++ ")") current_path forest)

/-! ### Tree collectors -/

mutual
def vals : TreeNode → List String
  | TreeNode.mk _ v ch => v :: valsF ch
def valsF : TreeForest → List String
  | TreeForest.nil => []
  | TreeForest.cons t ts => vals t ++ valsF ts
end

mutual
def labels : TreeNode → List String
  | TreeNode.mk l _ ch => l :: labelsF ch
def labelsF : TreeForest → List String
  | TreeForest.nil => []
  | TreeForest.cons t ts => labels t ++ labelsF ts
end

/-! ## C5: no cycle guard in the materializer -/

/-- A one-term ontology whose single `is_a` edge makes the term its own
parent: the smallest cyclic hierarchy. -/
def cyclicOntology : Ontology :=
  { terms := [⟨⟨"HP", "0001"⟩, "loopy"⟩],
    edges := [(⟨"HP", "0001"⟩, ⟨"HP", "0001"⟩)] }

/-- C5 (refuting the claimed guard): on a cyclic ontology `build_tree`
never produces a tree no matter how much recursion depth it is granted —
the source recurses indefinitely (until Python's recursion limit) instead
of detecting the cycle; no `CyclicHierarchyError` (or any cycle check)
exists in the code. -/
theorem build_tree_cycle_diverges :
    ∀ (n : Nat) (path : String), build_tree cyclicOntology n "HP:0001" path = none := by
  intro n
  induction n with
  | zero => intro path; rfl
  | succ n ih =>
    intro path
    have hg : cyclicOntology.getTerm "HP:0001" = some ⟨⟨"HP", "0001"⟩, "loopy"⟩ := rfl
    have hc : childrenOf cyclicOntology "HP:0001" = [⟨"HP", "0001"⟩] := rfl
    have hv : (⟨"HP", "0001"⟩ : TermId).value = "HP:0001" := rfl
    simp only [build_tree, hg, hc, forestOfList, hv, ih]

/-! ## C7: the Ontology Browser search filter -/

/-- Substring occurrence test on character lists. -/
def containsSub (hay needle : List Char) : Bool :=
  match hay with
  | [] => needle.isEmpty
  | _ :: t => listIsPrefixOf needle hay || containsSub t needle

/-- The HPO branch of the Ontology Browser tab:
`q = st.text_input(...).lower()` followed by
`filtered = [HPO_TREE[0]] if not q else []`. -/
def browserFiltered (raw : String) (t : TreeNode) : List TreeNode :=
  if (raw.data.map Char.toLower).isEmpty then [t] else []

/-- A small materialized hierarchy whose only deep leaf is
`HP:0004322 (Short stature)`. -/
def demoOntology : Ontology :=
  { terms := [⟨⟨"HP", "0000001"⟩, "All"⟩,
              ⟨⟨"HP", "0000118"⟩, "Phenotypic abnormality"⟩,
              ⟨⟨"HP", "0004322"⟩, "Short stature"⟩],
    edges := [(⟨"HP", "0000118"⟩, ⟨"HP", "0000001"⟩),
              (⟨"HP", "0004322"⟩, ⟨"HP", "0000118"⟩)] }

def demoTree : Option TreeNode := build_tree demoOntology 5 "HP:0000001" ""

/-- C7 (refuting the claimed pruning): for the nonempty query `short` the
browser filter returns the empty forest for every tree — in particular for
a materialized tree that does contain a matching deep leaf — instead of a
pruned tree with the matching root-to-leaf chain; no expanded-path
computation exists in the code. -/
theorem browser_filter_discards_matches :
    (∀ t : TreeNode, browserFiltered "short" t = []) ∧
    demoTree.map (fun t =>
      (labels t).any (fun l => containsSub (l.data.map Char.toLower) "short".data)) =
        some true ∧
    demoTree.map (fun t => (browserFiltered "short" t).isEmpty) = some true := by
  refine ⟨fun t => rfl, by decide, by decide⟩

/-! ## C4: path keys

`build_tree` keys each node by its root-to-node path string: the
`name + term_id` segments of the ancestors joined with `/`.  `chainKey`
reproduces that accumulation, and we prove it injective on id lists for
ids of the shape the loader produces (a shared prefix and a colon-free
local part), which makes the path keys of a materialized tree pairwise
distinct. -/

theorem data_app (s t : String) : (s ++ t).data = s.data ++ t.data := by
  cases s
  cases t
  rfl

theorem str_ext {s t : String} (h : s.data = t.data) : s = t :=
  congrArg String.mk h

/-- The loader-produced shape of a curie string: shared prefix `p`, then a
colon, then a colon-free local id. -/
def shaped (p tid : String) : Prop :=
  ∃ l : String, tid = p ++ ":" ++ l ∧ ∀ c ∈ l.data, (c == ':') = false

/-- The same shape at the `TermId` level. -/
def tidShaped (p : String) (t : TermId) : Prop :=
  t.pfx = p ∧ ∀ c ∈ t.idPart.data, (c == ':') = false

theorem shaped_value {p : String} {t : TermId} (h : tidShaped p t) : shaped p t.value :=
  ⟨t.idPart, by rw [TermId.value, h.1], h.2⟩

instance (p : String) (t : TermId) : Decidable (tidShaped p t) := by
  unfold tidShaped
  infer_instance

theorem shaped_data {p tid : String} (h : shaped p tid) :
    ∃ l : String, tid = p ++ ":" ++ l ∧ (∀ c ∈ l.data, (c == ':') = false) ∧
      tid.data = p.data ++ ':' :: l.data := by
  obtain ⟨l, he, hl⟩ := h
  refine ⟨l, he, hl, ?_⟩
  rw [he, data_app, data_app]
  simp

theorem value_inj {p : String} {t1 t2 : TermId} (h1 : tidShaped p t1) (h2 : tidShaped p t2)
    (he : t1.value = t2.value) : t1 = t2 := by
  obtain ⟨pf1, id1⟩ := t1
  obtain ⟨pf2, id2⟩ := t2
  obtain ⟨hp1, _⟩ := h1
  obtain ⟨hp2, _⟩ := h2
  simp only at hp1 hp2
  subst hp1
  subst hp2
  simp only [TermId.value] at he
  have hd := congrArg String.data he
  rw [data_app, data_app] at hd
  have := List.append_cancel_left hd
  simp [str_ext this]

def lastRun (cs : List Char) : List Char :=
  (cs.reverse.takeWhile (fun c => !(c == ':'))).reverse

theorem takeWhile_all_stop (p : Char → Bool) (xs ys : List Char) (y : Char)
    (hxs : ∀ x ∈ xs, p x = true) (hy : p y = false) :
    (xs ++ y :: ys).takeWhile p = xs := by
  induction xs with
  | nil => simp [List.takeWhile_cons, hy]
  | cons x xt ih =>
    have hx : p x = true := hxs x (List.mem_cons_self _ _)
    simp only [List.cons_append, List.takeWhile_cons, hx, if_true]
    rw [ih (fun z hz => hxs z (List.mem_cons_of_mem _ hz))]

theorem lastRun_decomp (A B : List Char) (hB : ∀ c ∈ B, (c == ':') = false) :
    lastRun (A ++ ':' :: B) = B := by
  unfold lastRun
  rw [List.reverse_append, List.reverse_cons, List.append_assoc]
  have : ([':'] ++ A.reverse) = ':' :: A.reverse := rfl
  rw [this]
  rw [takeWhile_all_stop _ B.reverse A.reverse ':'
    (fun x hx => by simp [hB x (List.mem_reverse.mp hx)]) (by decide)]
  exact List.reverse_reverse B

/-- One path segment: `term_name + term_id` (the name is empty for an
unknown term, but `build_tree` only ever uses segments of known terms). -/
def seg (o : Ontology) (tid : String) : String :=
  match o.getTerm tid with
  | some term => term.name ++ tid
  | none => tid

/-- The `current_path` step of `build_tree`. -/
def mkSeg (o : Ontology) (path tid : String) : String :=
  if path == "" then seg o tid else path ++ "/" ++ seg o tid

/-- The path key accumulated along a list of term-id strings. -/
def chainKey (o : Ontology) : String → List String → String
  | path, [] => path
  | path, tid :: rest => chainKey o (mkSeg o path tid) rest

theorem seg_decomp (o : Ontology) (tid : String) :
    ∃ N : List Char, (seg o tid).data = N ++ tid.data := by
  unfold seg
  cases o.getTerm tid with
  | none => exact ⟨[], rfl⟩
  | some term => exact ⟨term.name.data, data_app _ _⟩

theorem mkSeg_decomp {p : String} (o : Ontology) {a : String} (h : shaped p a) (X : String) :
    ∃ (C : List Char) (l : String), a = p ++ ":" ++ l ∧
      (∀ c ∈ l.data, (c == ':') = false) ∧
      (mkSeg o X a).data = C ++ ':' :: l.data ∧
      X.data.length < (mkSeg o X a).data.length := by
  obtain ⟨l, he, hl, hd⟩ := shaped_data h
  obtain ⟨N, hseg⟩ := seg_decomp o a
  unfold mkSeg
  cases hX : (X == "") with
  | true =>
    have hX2 : X = "" := by simpa using hX
    refine ⟨N ++ p.data, l, he, hl, ?_, ?_⟩
    · simp only [hX, if_true]
      rw [hseg, hd, ← List.append_assoc]
    · simp only [hX, if_true, hX2]
      rw [hseg, hd]
      simp
  | false =>
    refine ⟨X.data ++ '/' :: (N ++ p.data), l, he, hl, ?_, ?_⟩
    · simp only [hX, Bool.false_eq_true, if_false]
      rw [data_app, data_app, hseg, hd]
      simp
    · simp only [hX, Bool.false_eq_true, if_false]
      rw [data_app, data_app]
      simp

theorem mkSeg_eq_ids {p : String} (o : Ontology) {a b : String} (ha : shaped p a)
    (hb : shaped p b) {X Y : String} (h : mkSeg o X a = mkSeg o Y b) : a = b := by
  obtain ⟨C1, l1, he1, hl1, hd1, _⟩ := mkSeg_decomp o ha X
  obtain ⟨C2, l2, he2, hl2, hd2, _⟩ := mkSeg_decomp o hb Y
  have hdata : (mkSeg o X a).data = (mkSeg o Y b).data := congrArg String.data h
  rw [hd1, hd2] at hdata
  have hruns : l1.data = l2.data := by
    have e1 := lastRun_decomp C1 l1.data hl1
    have e2 := lastRun_decomp C2 l2.data hl2
    rw [← e1, ← e2, hdata]
  rw [he1, he2, str_ext hruns]

theorem mkSeg_cancel {o : Ontology} {a : String} {X Y : String}
    (h : mkSeg o X a = mkSeg o Y a) : X = Y := by
  have hdata := congrArg String.data h
  unfold mkSeg at hdata
  cases hX : (X == "") with
  | true =>
    have hX2 : X = "" := by simpa using hX
    cases hY : (Y == "") with
    | true =>
      have hY2 : Y = "" := by simpa using hY
      rw [hX2, hY2]
    | false =>
      exfalso
      rw [hX, hY] at hdata
      simp only [if_true, Bool.false_eq_true, if_false] at hdata
      have := congrArg List.length hdata
      rw [data_app, data_app] at this
      simp at this
      omega
  | false =>
    cases hY : (Y == "") with
    | true =>
      exfalso
      rw [hX, hY] at hdata
      simp only [if_true, Bool.false_eq_true, if_false] at hdata
      have := congrArg List.length hdata
      rw [data_app, data_app] at this
      simp at this
      omega
    | false =>
      rw [hX, hY] at hdata
      simp only [Bool.false_eq_true, if_false] at hdata
      rw [data_app, data_app, data_app, data_app] at hdata
      rw [List.append_assoc, List.append_assoc] at hdata
      exact str_ext (List.append_cancel_right hdata)

theorem chainKey_append (o : Ontology) (acc : String) (l1 l2 : List String) :
    chainKey o acc (l1 ++ l2) = chainKey o (chainKey o acc l1) l2 := by
  induction l1 generalizing acc with
  | nil => rfl
  | cons a t ih =>
    simp only [List.cons_append, chainKey]
    exact ih _

theorem mkSeg_len_ge (o : Ontology) (path a : String) :
    path.data.length ≤ (mkSeg o path a).data.length := by
  unfold mkSeg
  cases hX : (path == "") with
  | true =>
    have hX2 : path = "" := by simpa using hX
    simp [hX2]
  | false =>
    simp only [Bool.false_eq_true, if_false]
    rw [data_app, data_app]
    simp

theorem chainKey_len_ge (o : Ontology) (l : List String) (acc : String) :
    acc.data.length ≤ (chainKey o acc l).data.length := by
  induction l generalizing acc with
  | nil => exact Nat.le_refl _
  | cons a t ih =>
    simp only [chainKey]
    exact Nat.le_trans (mkSeg_len_ge o acc a) (ih _)

theorem chainKey_len_gt {p : String} (o : Ontology) {l : List String} (hl : l ≠ [])
    (hall : ∀ x ∈ l, shaped p x) (acc : String) :
    acc.data.length < (chainKey o acc l).data.length := by
  cases l with
  | nil => exact absurd rfl hl
  | cons a t =>
    simp only [chainKey]
    obtain ⟨_, _, _, _, _, hlen⟩ := mkSeg_decomp o (hall a (List.mem_cons_self _ _)) acc
    exact Nat.lt_of_lt_of_le hlen (chainKey_len_ge o t _)

theorem chainKey_inj {p : String} (o : Ontology) (acc : String) :
    ∀ (n : Nat) (l1 l2 : List String), l1.length + l2.length ≤ n →
      (∀ x ∈ l1, shaped p x) → (∀ x ∈ l2, shaped p x) →
      chainKey o acc l1 = chainKey o acc l2 → l1 = l2 := by
  intro n
  induction n with
  | zero =>
    intro l1 l2 hlen h1 h2 _
    have e1 : l1 = [] := List.eq_nil_of_length_eq_zero (by omega)
    have e2 : l2 = [] := List.eq_nil_of_length_eq_zero (by omega)
    rw [e1, e2]
  | succ n ih =>
    intro l1 l2 hlen h1 h2 heq
    rcases List.eq_nil_or_concat' l1 with rfl | ⟨t1, a, rfl⟩
    · rcases List.eq_nil_or_concat' l2 with rfl | ⟨t2, b, rfl⟩
      · rfl
      · exfalso
        have hgt := chainKey_len_gt o (by simp) h2 acc
        rw [← heq] at hgt
        simp only [chainKey] at hgt
        omega
    · rcases List.eq_nil_or_concat' l2 with rfl | ⟨t2, b, rfl⟩
      · exfalso
        have hgt := chainKey_len_gt o (by simp) h1 acc
        rw [heq] at hgt
        simp only [chainKey] at hgt
        omega
      · rw [chainKey_append, chainKey_append] at heq
        simp only [chainKey] at heq
        have hsa : shaped p a := h1 a (by simp)
        have hsb : shaped p b := h2 b (by simp)
        have hab : a = b := mkSeg_eq_ids o hsa hsb heq
        subst hab
        have hXY : chainKey o acc t1 = chainKey o acc t2 := mkSeg_cancel heq
        have hlen2 : t1.length + t2.length ≤ n := by
          simp only [List.length_append, List.length_cons] at hlen
          omega
        have ht : t1 = t2 := ih t1 t2 hlen2
          (fun x hx => h1 x (by simp [hx])) (fun x hx => h2 x (by simp [hx])) hXY
        rw [ht]

/-! ### Graph-side lemmas for C4 -/

theorem mem_childrenOf {o : Ontology} {tid : String} {c : TermId}
    (h : c ∈ childrenOf o tid) : ∃ e ∈ o.edges, e.1 = c := by
  unfold childrenOf at h
  obtain ⟨e, he, rfl⟩ := List.mem_map.mp h
  exact ⟨e, (List.mem_filter.mp he).1, rfl⟩

theorem childValues_nodup {p : String} {o : Ontology} (hE : o.edges.Nodup)
    (hS : ∀ e ∈ o.edges, tidShaped p e.1 ∧ tidShaped p e.2) (tid : String) :
    ((childrenOf o tid).map TermId.value).Nodup := by
  unfold childrenOf
  rw [List.map_map]
  apply List.Nodup.map_on ?_ (hE.filter _)
  intro x hx y hy hxy
  have hx2 := List.mem_filter.mp hx
  have hy2 := List.mem_filter.mp hy
  have hvx : x.2.value = tid := by simpa using hx2.2
  have hvy : y.2.value = tid := by simpa using hy2.2
  have hsx := hS x hx2.1
  have hsy := hS y hy2.1
  have e1 : x.1 = y.1 := value_inj hsx.1 hsy.1 hxy
  have e2 : x.2 = y.2 := value_inj hsx.2 hsy.2 (hvx.trans hvy.symm)
  exact Prod.ext e1 e2

theorem current_path_eq {o : Ontology} {tid : String} {term : Term}
    (hg : o.getTerm tid = some term) (path : String) :
    (if path == "" then term.name ++ tid else path ++ "/" ++ (term.name ++ tid)) =
      mkSeg o path tid := by
  unfold mkSeg seg
  rw [hg]

/-- Induction statement for trees: every successful `build_tree` call from
a loader-shaped id yields a tree whose path keys are the chain keys of
id paths starting at the call's id, and those keys are pairwise
distinct. -/
def TreeSpec (o : Ontology) (p : String) (n : Nat) : Prop :=
  ∀ tid path t, shaped p tid → build_tree o n tid path = some t →
    ((∀ v ∈ vals t, ∃ ids : List String,
        (∀ x ∈ ids, shaped p x) ∧ v = chainKey o path (tid :: ids)) ∧
     (vals t).Nodup)

/-- Induction statement for child forests. -/
def ForestSpec (o : Ontology) (p : String) (n : Nat) : Prop :=
  ∀ (cs : List TermId) (path : String) (f : TreeForest),
    (∀ c ∈ cs, tidShaped p c) →
    forestOfList (fun c => build_tree o n c.value path) cs = some f →
    ((∀ v ∈ valsF f, ∃ c, c ∈ cs ∧ ∃ ids : List String,
        (∀ x ∈ ids, shaped p x) ∧ v = chainKey o path (c.value :: ids)) ∧
     ((cs.map TermId.value).Nodup → (valsF f).Nodup))

theorem forest_spec_of_tree_spec (o : Ontology) (p : String) (m : Nat)
    (hT : TreeSpec o p m) : ForestSpec o p m := by
  intro cs
  induction cs with
  | nil =>
    intro path f _ hf
    simp only [forestOfList] at hf
    obtain rfl := Option.some.inj hf
    constructor
    · intro v hv
      simp [valsF] at hv
    · intro _
      simp [valsF, List.Nodup]
  | cons c cs ih =>
    intro path f hsh hf
    simp only [forestOfList] at hf
    cases hb : build_tree o m c.value path with
    | none => rw [hb] at hf; cases hf
    | some node =>
      rw [hb] at hf
      cases hrest : forestOfList (fun c => build_tree o m c.value path) cs with
      | none => rw [hrest] at hf; cases hf
      | some rest =>
        rw [hrest] at hf
        obtain rfl := Option.some.inj hf
        have hshc : shaped p c.value := shaped_value (hsh c (List.mem_cons_self _ _))
        obtain ⟨hchar_node, hnodup_node⟩ := hT c.value path node hshc hb
        obtain ⟨hchar_rest, hnodup_rest⟩ :=
          ih path rest (fun x hx => hsh x (List.mem_cons_of_mem _ hx)) hrest
        constructor
        · intro v hv
          simp only [valsF] at hv
          rcases List.mem_append.mp hv with h | h
          · obtain ⟨ids, hids, hveq⟩ := hchar_node v h
            exact ⟨c, List.mem_cons_self _ _, ids, hids, hveq⟩
          · obtain ⟨c2, hc2, ids, hids, hveq⟩ := hchar_rest v h
            exact ⟨c2, List.mem_cons_of_mem _ hc2, ids, hids, hveq⟩
        · intro hnd
          rw [List.map_cons, List.nodup_cons] at hnd
          simp only [valsF]
          refine List.Nodup.append hnodup_node (hnodup_rest hnd.2) ?_
          intro v hv1 hv2
          obtain ⟨ids1, hids1, he1⟩ := hchar_node v hv1
          obtain ⟨c2, hc2, ids2, hids2, he2⟩ := hchar_rest v hv2
          have hsc2 : shaped p c2.value :=
            shaped_value (hsh c2 (List.mem_cons_of_mem _ hc2))
          have hlists : (c.value :: ids1) = (c2.value :: ids2) := by
            apply chainKey_inj o path ((c.value :: ids1).length + (c2.value :: ids2).length)
              _ _ (Nat.le_refl _)
            · intro x hx
              rcases List.mem_cons.mp hx with rfl | hx2
              · exact hshc
              · exact hids1 x hx2
            · intro x hx
              rcases List.mem_cons.mp hx with rfl | hx2
              · exact hsc2
              · exact hids2 x hx2
            · rw [← he1, ← he2]
          have hcv : c.value = c2.value := by
            injection hlists
          exact hnd.1 (hcv ▸ List.mem_map.mpr ⟨c2, hc2, rfl⟩)

theorem tree_spec_all {p : String} (o : Ontology) (hE : o.edges.Nodup)
    (hS : ∀ e ∈ o.edges, tidShaped p e.1 ∧ tidShaped p e.2) :
    ∀ n, TreeSpec o p n := by
  intro n
  induction n with
  | zero =>
    intro tid path t _ hbt
    simp [build_tree] at hbt
  | succ n ih =>
    have hF : ForestSpec o p n := forest_spec_of_tree_spec o p n ih
    intro tid path t hst hbt
    simp only [build_tree] at hbt
    cases hg : o.getTerm tid with
    | none => rw [hg] at hbt; cases hbt
    | some term =>
      rw [hg] at hbt
      dsimp only [] at hbt
      rw [current_path_eq hg path] at hbt
      cases hf : forestOfList (fun c => build_tree o n c.value (mkSeg o path tid))
          (childrenOf o tid) with
      | none => rw [hf] at hbt; cases hbt
      | some forest =>
        rw [hf] at hbt
        obtain rfl := Option.some.inj hbt
        have hchildren : ∀ c ∈ childrenOf o tid, tidShaped p c := by
          intro c hc
          obtain ⟨e, he, rfl⟩ := mem_childrenOf hc
          exact (hS e he).1
        obtain ⟨hFchar, hFnodup⟩ :=
          hF (childrenOf o tid) (mkSeg o path tid) forest hchildren hf
        constructor
        · intro v hv
          simp only [vals] at hv
          rcases List.mem_cons.mp hv with rfl | h
          · exact ⟨[], by simp, rfl⟩
          · obtain ⟨c, hc, ids, hids, hveq⟩ := hFchar v h
            refine ⟨c.value :: ids, ?_, hveq⟩
            intro x hx
            rcases List.mem_cons.mp hx with rfl | hx2
            · exact shaped_value (hchildren c hc)
            · exact hids x hx2
        · simp only [vals]
          rw [List.nodup_cons]
          constructor
          · intro hmem
            obtain ⟨c, hc, ids, hids, hveq⟩ := hFchar _ hmem
            have hsc : shaped p c.value := shaped_value (hchildren c hc)
            have hlists : ([tid] : List String) = tid :: c.value :: ids := by
              apply chainKey_inj o path
                (([tid] : List String).length + (tid :: c.value :: ids).length)
                _ _ (Nat.le_refl _)
              · intro x hx
                rcases List.mem_cons.mp hx with rfl | hx2
                · exact hst
                · cases hx2
              · intro x hx
                rcases List.mem_cons.mp hx with rfl | hx2
                · exact hst
                · rcases List.mem_cons.mp hx2 with rfl | hx3
                  · exact hsc
                  · exact hids x hx3
              · simpa [chainKey] using hveq
            have : ([] : List String) = c.value :: ids := by injection hlists
            cases this
          · exact hFnodup (childValues_nodup hE hS tid)

/-! ### The multi-parent fan-out scenario -/

/-- The claim's concrete ontology: edge list
`[(HP:0001, HP:0000), (HP:0002, HP:0000), (HP:0003, HP:0001), (HP:0003, HP:0002)]`
with root `HP:0000`. -/
def fanOntology : Ontology :=
  { terms := [⟨⟨"HP", "0000"⟩, "n0"⟩, ⟨⟨"HP", "0001"⟩, "n1"⟩,
              ⟨⟨"HP", "0002"⟩, "n2"⟩, ⟨⟨"HP", "0003"⟩, "n3"⟩],
    edges := [(⟨"HP", "0001"⟩, ⟨"HP", "0000"⟩), (⟨"HP", "0002"⟩, ⟨"HP", "0000"⟩),
              (⟨"HP", "0003"⟩, ⟨"HP", "0001"⟩), (⟨"HP", "0003"⟩, ⟨"HP", "0002"⟩)] }

/-- The tree `build_tree` materializes from `fanOntology` at root
`HP:0000`: `HP:0003` appears once under each of its two parents, with
distinct path keys and identical labels. -/
def fanTree : TreeNode :=
  TreeNode.mk "HP:0000 (n0)" "n0HP:0000"
    (TreeForest.cons
      (TreeNode.mk "HP:0001 (n1)" "n0HP:0000/n1HP:0001"
        (TreeForest.cons
          (TreeNode.mk "HP:0003 (n3)" "n0HP:0000/n1HP:0001/n3HP:0003" TreeForest.nil)
          TreeForest.nil))
      (TreeForest.cons
        (TreeNode.mk "HP:0002 (n2)" "n0HP:0000/n2HP:0002"
          (TreeForest.cons
            (TreeNode.mk "HP:0003 (n3)" "n0HP:0000/n2HP:0002/n3HP:0003" TreeForest.nil)
            TreeForest.nil))
        TreeForest.nil))

/-- C4: for every ontology whose ids are loader-shaped (one shared prefix,
colon-free local ids — what `extract_terms_ontology` with a singleton
prefix set produces) and whose edge set has no duplicates, every
materialized tree has pairwise-distinct path keys (`value`s), one per
root-to-node path; and on the concrete four-edge fan ontology the tree
contains five nodes (four besides the root), with `HP:0003` appearing
twice under its two parents with identical labels and distinct path
keys. -/
theorem build_tree_path_keys_unique (o : Ontology) (p root path : String) (n : Nat)
    (t : TreeNode) (hE : o.edges.Nodup)
    (hS : ∀ e ∈ o.edges, tidShaped p e.1 ∧ tidShaped p e.2)
    (hR : shaped p root) (hb : build_tree o n root path = some t) :
    (vals t).Nodup ∧
    (∀ v ∈ vals t, ∃ ids : List String,
      (∀ x ∈ ids, shaped p x) ∧ v = chainKey o path (root :: ids)) ∧
    build_tree fanOntology 10 "HP:0000" "" = some fanTree ∧
    (labels fanTree).count "HP:0003 (n3)" = 2 ∧
    labels fanTree = ["HP:0000 (n0)", "HP:0001 (n1)", "HP:0003 (n3)",
                      "HP:0002 (n2)", "HP:0003 (n3)"] ∧
    vals fanTree = ["n0HP:0000", "n0HP:0000/n1HP:0001", "n0HP:0000/n1HP:0001/n3HP:0003",
                    "n0HP:0000/n2HP:0002", "n0HP:0000/n2HP:0002/n3HP:0003"] ∧
    (vals fanTree).Nodup := by
  obtain ⟨hchar, hnodup⟩ := tree_spec_all o hE hS n root path t hR hb
  exact ⟨hnodup, hchar, by rfl, by decide, by decide, by decide, by decide⟩

theorem build_tree_unique_witness :
    build_tree fanOntology 10 "HP:0000" "" = some fanTree ∧ (vals fanTree).Nodup := by
  have hb : build_tree fanOntology 10 "HP:0000" "" = some fanTree := by rfl
  refine ⟨hb, ?_⟩
  exact (build_tree_path_keys_unique fanOntology "HP" "HP:0000" "" 10 fanTree
    (by decide) (by decide) ⟨"0000", rfl, by decide⟩ hb).1

end HpoaBuilder
